import Mathlib

/-!
# Verification of `plover/gui/keyboard_config.py`

A shallow embedding of the pure logic of the keyboard configuration
dialogs: Python `str.split()` / `str.join`, the key-capture dialog
(`EditKeysDialog`), the keymap list editor (`EditKeymapWidget`), and the
top-level configuration dialog (`KeyboardConfigDialog`), together with
theorems about the claims of the specification.
-/

namespace KeyboardConfig

/-! ## Python string primitives -/

/-- The whitespace characters recognised by Python's `str.split()` with no
arguments (ASCII subset relevant here). -/
def pyIsSpace (c : Char) : Bool :=
  c = ' ' || c = '\t' || c = '\n' || c = '\r' || c = '\x0b' || c = '\x0c'

/-- Worker for `pySplit`: `acc` is the (non-space) token read so far. -/
def pySplitAux : List Char → List Char → List String
  | [], acc => if acc = [] then [] else [String.mk acc]
  | c :: cs, acc =>
    if pyIsSpace c then
      if acc = [] then pySplitAux cs []
      else String.mk acc :: pySplitAux cs []
    else pySplitAux cs (acc ++ [c])

/-- Python `s.split()` (no arguments): split on runs of whitespace,
discarding empty tokens.  Total: never fails on any input. -/
def pySplit (s : String) : List String := pySplitAux s.data []

/-- Python `sep.join(xs)`. -/
def pyJoin (sep : String) : List String → String
  | [] => ""
  | [x] => x
  | x :: xs => x ++ sep ++ pyJoin sep xs

/-- `' '.join(sorted(keys))` for a Python set of strings. -/
def sortedJoin (keys : Finset String) : String :=
  pyJoin " " (keys.sort (· ≤ ·))

/-! ## wx constants -/

def wxID_OK : Nat := 5100
def wxID_CANCEL : Nat := 5101

/-! ## `EditKeysDialog` -/

/-- The mutable state of `EditKeysDialog`: set in `__init__` from the
`action` and `keys` arguments (`self.keys = set(keys)`;
`self.original_keys = self.keys.copy()`). -/
structure EditKeysState where
  action : String
  keys : Finset String
  original_keys : Finset String
  deriving DecidableEq

/-- `EditKeysDialog.__init__(parent, action, keys)`. -/
def editKeysInit (action : String) (keys : List String) : EditKeysState :=
  { action := action, keys := keys.toFinset, original_keys := keys.toFinset }

/-- `EditKeysDialog.on_capture_key(key)`: toggle membership of `key` in
`self.keys`. -/
def on_capture_key (st : EditKeysState) (key : String) : EditKeysState :=
  if key ∈ st.keys then { st with keys := st.keys.erase key }
  else { st with keys := insert key st.keys }

/-- `EditKeysDialog.on_clear(event)`: `self.keys.clear()`. -/
def on_clear (st : EditKeysState) : EditKeysState :=
  { st with keys := ∅ }

/-- One user interaction with the open `EditKeysDialog`. -/
inductive DlgEvent
  | captureKey (key : String)
  | clear
  deriving DecidableEq, Repr

/-- Dispatch one event to its handler. -/
def dlgStep (st : EditKeysState) : DlgEvent → EditKeysState
  | .captureKey k => on_capture_key st k
  | .clear => on_clear st

/-- Run a sequence of dialog events from a state. -/
def dlgRun (st : EditKeysState) (events : List DlgEvent) : EditKeysState :=
  events.foldl dlgStep st

/-- The `changes` list built by `EditKeysDialog.update_message`: iterate
over `sorted(self.keys.union(self.original_keys))`, emit `'+' + key` for a
key not in the original set, `'-' + key` for a key no longer in the
current set. -/
def changeTokens (keys original_keys : Finset String) : List String :=
  ((keys ∪ original_keys).sort (· ≤ ·)).filterMap fun key =>
    if key ∉ original_keys then some ("+" ++ key)
    else if key ∉ keys then some ("-" ++ key)
    else none

/-- The current-key-set part of the message:
`' '.join(sorted(self.keys)) if self.keys else 'None'`. -/
def currentKeysLine (keys : Finset String) : String :=
  if keys = ∅ then "None" else sortedJoin keys

/-- The changes part of the message:
`' '.join(changes) if changes else 'None'`. -/
def changesLine (keys original_keys : Finset String) : String :=
  if changeTokens keys original_keys = [] then "None"
  else pyJoin " " (changeTokens keys original_keys)

/-- Specification helper: the key name carried by a `+key`/`-key` change
token (the token with its sign character stripped). -/
def tokenKey (t : String) : String := String.mk (t.data.drop 1)

/-- The full label text set by `EditKeysDialog.update_message`. -/
def update_message (st : EditKeysState) : String :=
  "\nKeys for " ++ st.action ++ ": " ++ currentKeysLine st.keys
    ++ "\n\nChanges: " ++ changesLine st.keys st.original_keys ++ "\n"

/-! ### `EditKeysDialog.ShowModal`: capture life-cycle

The method body is

```
self.update_message()
self.capture.start()
try:
    self.capture.suppress_keyboard(('space', 'Escape', 'Return', 'Tab'))
    code = super(EditKeysDialog, self).ShowModal()
finally:
    self.capture.cancel()
return code
```

We model the two fallible calls inside the `try` by their outcomes
(`Except`), and record the operations on `self.capture` (and the modal
run) as an event trace. -/

/-- Observable events of one `EditKeysDialog.ShowModal` invocation. -/
inductive CaptureEvent
  | start
  | suppress
  | modalRun
  | cancel
  deriving DecidableEq, Repr

/-- An exception value (opaque payload). -/
structure Exn where
  payload : Nat
  deriving DecidableEq, Repr

/-- `EditKeysDialog.ShowModal`, parameterised by the outcome of
`suppress_keyboard` and of the superclass `ShowModal` (each may return or
raise).  Returns the result (the modal code, or the propagated exception)
together with the ordered trace of events. -/
def editKeysShowModal (suppress : Except Exn Unit) (superModal : Except Exn Nat) :
    Except Exn Nat × List CaptureEvent :=
  match suppress with
  | .error e => (.error e, [.start, .suppress, .cancel])
  | .ok () =>
    match superModal with
    | .error e => (.error e, [.start, .suppress, .modalRun, .cancel])
    | .ok code => (.ok code, [.start, .suppress, .modalRun, .cancel])

/-! ## Python `OrderedDict` (insertion-ordered association list) -/

/-- Does the dict have key `k`? -/
def odHasKey {V : Type} (od : List (String × V)) (k : String) : Bool :=
  od.any fun p => p.1 == k

/-- `od[k] = v` on a Python dict: an existing key keeps its position and
gets the new value, a new key is appended at the end. -/
def odInsert {V : Type} (od : List (String × V)) (k : String) (v : V) :
    List (String × V) :=
  if odHasKey od k then od.map fun p => if p.1 == k then (k, v) else p
  else od ++ [(k, v)]

/-- Python `od.update(other)`: insert each entry of `other` in order. -/
def odUpdate {V : Type} (od other : List (String × V)) : List (String × V) :=
  other.foldl (fun acc p => odInsert acc p.1 p.2) od

/-- Python `od.get(k)` / `od[k]`. -/
def odGet {V : Type} (od : List (String × V)) (k : String) : Option V :=
  (od.find? fun p => p.1 == k).map Prod.snd

/-- Specification helper: the entry `p` after an `od.update(other)` —
its value is replaced by `other`'s value when `other` has `p`'s key,
otherwise the entry is untouched. -/
def odOverwrite {V : Type} (other : List (String × V)) (p : String × V) : String × V :=
  match odGet other p.1 with
  | some v => (p.1, v)
  | none => p

/-! ## `EditKeymapWidget` -/

/-- One row of the list control: column 0 is the action, column 1 the
keys text. -/
abbrev Row := String × String

/-- The rows of the list control, top to bottom. -/
abbrev ListState := List Row

/-- A Python value in an action-to-keys mapping: either a string
(`basestring`) or a list of key names. -/
inductive KeyVal
  | str (s : String)
  | list (keys : List String)
  deriving DecidableEq

/-- The column-1 text rendered by `set_mappings` for one value:
`key_list if isinstance(key_list, basestring) else ' '.join(key_list)`. -/
def keyValText : KeyVal → String
  | .str s => s
  | .list keys => pyJoin " " keys

/-- `EditKeymapWidget.set_mappings(mappings)`: delete all rows, then
insert one row per entry of the mapping, in order. -/
def set_mappings (mappings : List (String × KeyVal)) : ListState :=
  mappings.map fun p => (p.1, keyValText p.2)

/-- `EditKeymapWidget.get_mappings()`: read the rows top to bottom into an
`OrderedDict`, splitting each key-column text on whitespace. -/
def get_mappings (rows : ListState) : List (String × KeyVal) :=
  rows.foldl (fun od p => odInsert od p.1 (KeyVal.list (pySplit p.2))) []

/-- `EditKeymapWidget.edit_item(event)` on row `i`: read the action
(column 0) and the keys text (column 1), open `EditKeysDialog` seeded
with `text.split()`, run the user's interaction `events`, and close the
modal with `code`.  On `wx.ID_OK` column 1 of the row is rewritten as
`' '.join(sorted(dlg.keys))`; on any other code the rows are unchanged. -/
def edit_item (rows : ListState) (i : Nat) (events : List DlgEvent) (code : Nat) :
    ListState :=
  match rows[i]? with
  | none => rows
  | some (action, text) =>
    let dlg := dlgRun (editKeysInit action (pySplit text)) events
    if code ≠ wxID_OK then rows
    else rows.set i (action, sortedJoin dlg.keys)

/-! ## `KeyboardConfigDialog` -/

/-- The caller's `options` object, restricted to the fields the dialog
reads and writes.  `keymap` stands for the `options.keymap` object;
modelled from the spec: the `Keymap` class (not part of this module) is
taken to store the mapping handed to its `set_mappings` and return it
from `get_mappings`. -/
structure Options where
  arpeggiate : Bool
  keymap : List (String × KeyVal)
  deriving DecidableEq

/-- The dialog widgets written by `KeyboardConfigDialog.__init__` and
read back by `ShowModal`. -/
structure KCDialogState where
  arpeggiateChecked : Bool
  keymapRows : ListState
  deriving DecidableEq

/-- `KeyboardConfigDialog.__init__`: the checkbox is set from
`options.arpeggiate`, the keymap widget is loaded from
`options.keymap.get_mappings()`. -/
def kcInit (options : Options) : KCDialogState :=
  { arpeggiateChecked := options.arpeggiate
    keymapRows := set_mappings options.keymap }

/-- `KeyboardConfigDialog.ShowModal`, parameterised by the dialog state
at the moment the inner modal run ends and by the code it ends with.  On
`wx.ID_OK` the checkbox value and the widget's reconstructed mapping are
written back into the options object; otherwise the options are left
untouched. -/
def kcShowModal (st : KCDialogState) (code : Nat) (options : Options) :
    Nat × Options :=
  if code = wxID_OK then
    (code, { arpeggiate := st.arpeggiateChecked
             keymap := get_mappings st.keymapRows })
  else (code, options)

/-- `KeyboardConfigDialog.on_reset(event)`, parameterised by the default
mapping (`KeyboardMachine.DEFAULT_MAPPINGS`, defined outside this
module): re-read the widget, `update` with the defaults, reload the
widget from the merged mapping. -/
def on_reset (default : List (String × KeyVal)) (st : KCDialogState) :
    KCDialogState :=
  { st with
    keymapRows := set_mappings (odUpdate (get_mappings st.keymapRows) default) }

/-! ## Supporting lemmas: Python string primitives -/

theorem string_mk_data (s : String) : String.mk s.data = s := rfl

theorem pySplitAux_nil (acc : List Char) :
    pySplitAux [] acc = if acc = [] then [] else [String.mk acc] := rfl

theorem pySplitAux_space {c : Char} (hc : pyIsSpace c = true) (cs acc : List Char) :
    pySplitAux (c :: cs) acc =
      if acc = [] then pySplitAux cs [] else String.mk acc :: pySplitAux cs [] := by
  simp [pySplitAux, hc]

theorem pySplitAux_nonspace {c : Char} (hc : pyIsSpace c = false) (cs acc : List Char) :
    pySplitAux (c :: cs) acc = pySplitAux cs (acc ++ [c]) := by
  simp [pySplitAux, hc]

theorem pySplitAux_token (t : List Char) (h : ∀ c ∈ t, pyIsSpace c = false) :
    ∀ cs acc : List Char, pySplitAux (t ++ cs) acc = pySplitAux cs (acc ++ t) := by
  induction t with
  | nil => intro cs acc; simp
  | cons c t ih =>
    intro cs acc
    have hc : pyIsSpace c = false := h c (List.mem_cons_self c t)
    rw [List.cons_append, pySplitAux_nonspace hc]
    rw [ih (fun c' hc' => h c' (List.mem_cons_of_mem c hc')) cs (acc ++ [c])]
    simp

theorem pySplit_pyJoin (l : List String)
    (h : ∀ t ∈ l, t.data ≠ [] ∧ ∀ c ∈ t.data, pyIsSpace c = false) :
    pySplit (pyJoin " " l) = l := by
  induction l with
  | nil => rfl
  | cons x xs ih =>
    obtain ⟨hx, hxc⟩ := h x (List.mem_cons_self x xs)
    cases xs with
    | nil =>
      show pySplitAux (pyJoin " " [x]).data [] = [x]
      have h1 := pySplitAux_token x.data hxc [] []
      simp only [List.append_nil, List.nil_append] at h1
      simp only [pyJoin]
      rw [h1, pySplitAux_nil, if_neg hx, string_mk_data]
    | cons y ys =>
      have hdata : (pyJoin " " (x :: y :: ys)).data = x.data ++ (' ' :: (pyJoin " " (y :: ys)).data) := by
        show (x ++ " " ++ pyJoin " " (y :: ys)).data = _
        simp [String.data_append]
      show pySplitAux (pyJoin " " (x :: y :: ys)).data [] = x :: y :: ys
      rw [hdata, pySplitAux_token x.data hxc, List.nil_append,
        pySplitAux_space (by decide : pyIsSpace ' ' = true), if_neg hx, string_mk_data]
      exact congrArg (x :: ·) (ih fun t ht => h t (List.mem_cons_of_mem x ht))

theorem pySplitAux_all_space (cs : List Char) (h : ∀ c ∈ cs, pyIsSpace c = true) :
    pySplitAux cs [] = [] := by
  induction cs with
  | nil => rfl
  | cons c cs ih =>
    rw [pySplitAux_space (h c (List.mem_cons_self c cs)), if_pos rfl]
    exact ih fun c' hc' => h c' (List.mem_cons_of_mem c hc')

theorem pySplit_all_space (s : String) (h : ∀ c ∈ s.data, pyIsSpace c = true) :
    pySplit s = [] :=
  pySplitAux_all_space s.data h

theorem pySplitAux_tokens (cs : List Char) :
    ∀ acc, (∀ c ∈ acc, pyIsSpace c = false) →
      ∀ t ∈ pySplitAux cs acc, t.data ≠ [] ∧ ∀ c ∈ t.data, pyIsSpace c = false := by
  induction cs with
  | nil =>
    intro acc hacc t ht
    rw [pySplitAux_nil] at ht
    by_cases ha : acc = []
    · simp [ha] at ht
    · simp only [if_neg ha, List.mem_singleton] at ht
      subst ht
      exact ⟨ha, hacc⟩
  | cons c cs ih =>
    intro acc hacc t ht
    by_cases hc : pyIsSpace c = true
    · rw [pySplitAux_space hc] at ht
      by_cases ha : acc = []
      · rw [if_pos ha] at ht
        exact ih [] (by simp) t ht
      · rw [if_neg ha] at ht
        rcases List.mem_cons.mp ht with rfl | ht'
        · exact ⟨ha, hacc⟩
        · exact ih [] (by simp) t ht'
    · rw [pySplitAux_nonspace (Bool.not_eq_true _ ▸ hc : pyIsSpace c = false)] at ht
      refine ih (acc ++ [c]) ?_ t ht
      intro c' hc'
      rcases List.mem_append.mp hc' with h' | h'
      · exact hacc c' h'
      · rw [List.mem_singleton.mp h']
        exact Bool.not_eq_true _ ▸ hc

theorem pySplit_tokens (s : String) :
    ∀ t ∈ pySplit s, t.data ≠ [] ∧ ∀ c ∈ t.data, pyIsSpace c = false :=
  pySplitAux_tokens s.data [] (by simp)

/-! ## Supporting lemmas: ordered dicts -/

theorem odGet_nil {V : Type} (k : String) : odGet ([] : List (String × V)) k = none := rfl

theorem odGet_cons {V : Type} (p : String × V) (od : List (String × V)) (k : String) :
    odGet (p :: od) k = if p.1 = k then some p.2 else odGet od k := by
  by_cases h : p.1 = k
  · simp [odGet, List.find?_cons_of_pos _ (beq_iff_eq.mpr h), h]
  · have hb : ¬((p.1 == k) = true) := by simpa using h
    simp [odGet, List.find?_cons_of_neg _ hb, h]

theorem odGet_append {V : Type} (od od' : List (String × V)) (k : String) :
    odGet (od ++ od') k = (odGet od k).or (odGet od' k) := by
  unfold odGet
  rw [List.find?_append]
  cases od.find? fun p => p.1 == k <;> simp

theorem odHasKey_iff {V : Type} {od : List (String × V)} {k : String} :
    odHasKey od k = true ↔ ∃ p ∈ od, p.1 = k := by
  simp [odHasKey]

theorem odHasKey_cons {V : Type} (p : String × V) (od : List (String × V)) (k : String) :
    odHasKey (p :: od) k = ((p.1 == k) || odHasKey od k) := rfl

theorem odGet_eq_none_iff {V : Type} {od : List (String × V)} {k : String} :
    odGet od k = none ↔ odHasKey od k = false := by
  unfold odGet odHasKey
  rw [Option.map_eq_none', List.find?_eq_none, Bool.eq_false_iff]
  constructor
  · intro h' hany
    obtain ⟨p, hp, hpk⟩ := List.any_eq_true.mp hany
    exact h' p hp hpk
  · intro h' p hp hpk
    exact h' (List.any_eq_true.mpr ⟨p, hp, hpk⟩)

theorem odGet_eq_none_of_not_hasKey {V : Type} {od : List (String × V)} {k : String}
    (h : odHasKey od k = false) : odGet od k = none :=
  odGet_eq_none_iff.mpr h

theorem odGet_eq_none_of_not_mem_keys {V : Type} {od : List (String × V)} {k : String}
    (h : k ∉ od.map Prod.fst) : odGet od k = none := by
  apply odGet_eq_none_of_not_hasKey
  rw [Bool.eq_false_iff]
  intro hk
  obtain ⟨p, hp, hpk⟩ := odHasKey_iff.mp hk
  exact h (hpk ▸ List.mem_map_of_mem Prod.fst hp)

theorem map_fst_overwrite {V : Type} (od : List (String × V)) (k : String) (v : V) :
    ((od.map fun p => if p.1 == k then (k, v) else p).map Prod.fst) = od.map Prod.fst := by
  rw [List.map_map]
  apply List.map_congr_left
  intro p _
  by_cases h : p.1 = k
  · simp [Function.comp, h]
  · simp [Function.comp, h]

theorem odHasKey_overwrite {V : Type} (od : List (String × V)) (k : String) (v : V)
    (k' : String) :
    odHasKey (od.map fun p => if p.1 == k then (k, v) else p) k' = odHasKey od k' := by
  induction od with
  | nil => rfl
  | cons p od ih =>
    rw [List.map_cons, odHasKey_cons, odHasKey_cons, ih]
    by_cases hp : p.1 = k
    · simp [hp]
    · simp [hp]

theorem odGet_overwrite {V : Type} (od : List (String × V)) (k : String) (v : V)
    (k' : String) :
    odGet (od.map fun p => if p.1 == k then (k, v) else p) k'
      = if k = k' then (odGet od k).map fun _ => v else odGet od k' := by
  induction od with
  | nil => by_cases h : k = k' <;> simp [odGet_nil, h]
  | cons p od ih =>
    simp only [beq_iff_eq] at ih
    by_cases hp : p.1 = k
    · by_cases hk' : k = k'
      · simp [List.map_cons, odGet_cons, hp, hk', ih]
      · have hpk' : ¬(p.1 = k') := by rw [hp]; exact hk'
        simp [List.map_cons, odGet_cons, hp, hk', hpk', ih]
    · by_cases hp' : p.1 = k'
      · have hkk' : ¬(k = k') := fun h => hp (by rw [h]; exact hp')
        have hk'k : ¬(k' = k) := fun h => hkk' h.symm
        simp [List.map_cons, odGet_cons, hp, hp', hkk', hk'k, ih]
      · simp [List.map_cons, odGet_cons, hp, hp', ih]

theorem odInsert_of_not_hasKey {V : Type} {od : List (String × V)} {k : String}
    (h : odHasKey od k = false) (v : V) : odInsert od k v = od ++ [(k, v)] := by
  simp [odInsert, h]

theorem odGet_odInsert {V : Type} (od : List (String × V)) (k : String) (v : V)
    (k' : String) :
    odGet (odInsert od k v) k' = if k = k' then some v else odGet od k' := by
  unfold odInsert
  by_cases h : odHasKey od k
  · rw [if_pos h, odGet_overwrite]
    by_cases hk' : k = k'
    · rcases hg : odGet od k with _ | w
      · exact absurd (odGet_eq_none_iff.mp hg) (by simp [h])
      · simp [hk', hg]
    · simp [hk']
  · rw [if_neg h, odGet_append]
    by_cases hk' : k = k'
    · subst hk'
      rw [odGet_eq_none_of_not_hasKey (Bool.eq_false_iff.mpr h)]
      simp [odGet_cons]
    · simp [odGet_cons, hk', odGet_nil]

theorem odHasKey_append {V : Type} (od od' : List (String × V)) (k : String) :
    odHasKey (od ++ od') k = (odHasKey od k || odHasKey od' k) := by
  unfold odHasKey
  exact List.any_append

theorem odUpdate_nil {V : Type} (od : List (String × V)) : odUpdate od [] = od := rfl

theorem odUpdate_cons {V : Type} (od : List (String × V)) (q : String × V)
    (rest : List (String × V)) :
    odUpdate od (q :: rest) = odUpdate (odInsert od q.1 q.2) rest := rfl

theorem odGet_odUpdate {V : Type} :
    ∀ other : List (String × V), (other.map Prod.fst).Nodup →
      ∀ (od : List (String × V)) (k : String),
        odGet (odUpdate od other) k = (odGet other k).or (odGet od k) := by
  intro other
  induction other with
  | nil => intro _ od k; simp [odUpdate_nil, odGet_nil]
  | cons q rest ih =>
    intro hnd od k
    rw [List.map_cons] at hnd
    obtain ⟨hq, hnd'⟩ := List.nodup_cons.mp hnd
    rw [odUpdate_cons, ih hnd' (odInsert od q.1 q.2) k, odGet_odInsert, odGet_cons]
    by_cases hk : q.1 = k
    · have hrest : odGet rest k = none := odGet_eq_none_of_not_mem_keys (hk ▸ hq)
      simp [hk, hrest]
    · simp [hk]

theorem odOverwrite_nil {V : Type} (p : String × V) : odOverwrite [] p = p := rfl

theorem odOverwrite_of_none {V : Type} {other : List (String × V)} {p : String × V}
    (h : odGet other p.1 = none) : odOverwrite other p = p := by
  simp [odOverwrite, h]

theorem odUpdate_eq {V : Type} :
    ∀ other : List (String × V), (other.map Prod.fst).Nodup →
      ∀ od : List (String × V),
        odUpdate od other
          = od.map (odOverwrite other) ++ other.filter fun p => !odHasKey od p.1 := by
  intro other
  induction other with
  | nil =>
    intro _ od
    rw [odUpdate_nil, List.filter_nil, List.append_nil]
    conv_lhs => rw [← List.map_id od]
    apply List.map_congr_left
    intro p _
    exact (odOverwrite_nil p).symm
  | cons q rest ih =>
    intro hnd od
    rw [List.map_cons] at hnd
    obtain ⟨hq, hnd'⟩ := List.nodup_cons.mp hnd
    have hqnone : odGet rest q.1 = none := odGet_eq_none_of_not_mem_keys hq
    rw [odUpdate_cons, ih hnd' (odInsert od q.1 q.2)]
    unfold odInsert
    by_cases h : odHasKey od q.1
    · rw [if_pos h, List.map_map]
      have hmap : ∀ a ∈ od,
          (odOverwrite rest ∘ fun p => if p.1 == q.1 then (q.1, q.2) else p) a
            = odOverwrite (q :: rest) a := by
        intro a _
        by_cases ha : a.1 = q.1
        · simp [Function.comp, odOverwrite, odGet_cons, ha, hqnone]
        · have ha' : ¬(q.1 = a.1) := fun he => ha he.symm
          simp [Function.comp, odOverwrite, odGet_cons, ha, ha']
      rw [List.map_congr_left hmap]
      have hfil : (rest.filter fun p =>
            !odHasKey (od.map fun r => if r.1 == q.1 then (q.1, q.2) else r) p.1)
          = rest.filter fun p => !odHasKey od p.1 := by
        apply List.filter_congr
        intro p _
        rw [odHasKey_overwrite]
      rw [hfil, List.filter_cons]
      simp [h]
    · rw [if_neg h, List.map_append]
      have hov : odOverwrite rest q = q := odOverwrite_of_none hqnone
      have hmap : ∀ a ∈ od, odOverwrite rest a = odOverwrite (q :: rest) a := by
        intro a ha
        have hane : ¬(q.1 = a.1) := by
          intro he
          exact absurd (odHasKey_iff.mpr ⟨a, ha, he.symm⟩) (by simp [h])
        simp [odOverwrite, odGet_cons, hane]
      rw [List.map_congr_left hmap]
      have hfil : (rest.filter fun p => !odHasKey (od ++ [q]) p.1)
          = rest.filter fun p => !odHasKey od p.1 := by
        apply List.filter_congr
        intro p hp
        have hqp : ¬(q.1 = p.1) := fun he => hq (he ▸ List.mem_map_of_mem Prod.fst hp)
        rw [odHasKey_append]
        simp [odHasKey, hqp]
      rw [hfil, List.filter_cons]
      have hpos : (!odHasKey od q.1) = true := by simp [Bool.eq_false_iff.mpr h]
      simp [hpos, hov]

theorem foldl_odInsert_fresh {V : Type} :
    ∀ l acc : List (String × V),
      (∀ p ∈ l, odHasKey acc p.1 = false) → (l.map Prod.fst).Nodup →
      l.foldl (fun od p => odInsert od p.1 p.2) acc = acc ++ l := by
  intro l
  induction l with
  | nil => intro acc _ _; simp
  | cons p l ih =>
    intro acc hfresh hnd
    rw [List.map_cons] at hnd
    obtain ⟨hp, hnd'⟩ := List.nodup_cons.mp hnd
    rw [List.foldl_cons, odInsert_of_not_hasKey (hfresh p (List.mem_cons_self p l)) p.2]
    rw [ih (acc ++ [(p.1, p.2)]) ?_ hnd']
    · simp
    · intro r hr
      have h1 : odHasKey acc r.1 = false := hfresh r (List.mem_cons_of_mem p hr)
      have h2 : ¬(p.1 = r.1) := fun he => hp (he ▸ List.mem_map_of_mem Prod.fst hr)
      rw [odHasKey_append, h1]
      simp [odHasKey, h2]

theorem get_mappings_eq_map (rows : ListState) (h : (rows.map Prod.fst).Nodup) :
    get_mappings rows = rows.map fun p => (p.1, KeyVal.list (pySplit p.2)) := by
  unfold get_mappings
  have hswap : rows.foldl (fun od p => odInsert od p.1 (KeyVal.list (pySplit p.2))) []
      = (rows.map fun p => (p.1, KeyVal.list (pySplit p.2))).foldl
          (fun od p => odInsert od p.1 p.2) [] := by
    rw [List.foldl_map]
  rw [hswap, foldl_odInsert_fresh _ [] (fun p _ => rfl) ?_]
  · simp
  · rw [List.map_map]
    simpa [Function.comp] using h

/-! ## Supporting lemmas: the changes list of `update_message` -/

theorem string_eq_of_data_eq {a b : String} (h : a.data = b.data) : a = b :=
  String.toList_inj.mp h

theorem tokenKey_plus (k : String) : tokenKey ("+" ++ k) = k := by
  unfold tokenKey
  rw [String.data_append]
  exact string_mk_data k

theorem tokenKey_minus (k : String) : tokenKey ("-" ++ k) = k := by
  unfold tokenKey
  rw [String.data_append]
  exact string_mk_data k

theorem plus_append_injective : Function.Injective fun k : String => "+" ++ k := by
  intro k k' h
  have hd := congrArg String.data h
  simp only [String.data_append] at hd
  exact string_eq_of_data_eq (by simpa using hd)

theorem minus_append_injective : Function.Injective fun k : String => "-" ++ k := by
  intro k k' h
  have hd := congrArg String.data h
  simp only [String.data_append] at hd
  exact string_eq_of_data_eq (by simpa using hd)

theorem plus_append_ne_minus_append (k k' : String) :
    ("+" : String) ++ k ≠ "-" ++ k' := by
  intro h
  have hd := congrArg String.data h
  simp [String.data_append] at hd

theorem mem_changeTokens {keys orig : Finset String} {t : String} :
    t ∈ changeTokens keys orig ↔
      (∃ k, k ∈ keys ∧ k ∉ orig ∧ t = "+" ++ k) ∨
      (∃ k, k ∈ orig ∧ k ∉ keys ∧ t = "-" ++ k) := by
  unfold changeTokens
  rw [List.mem_filterMap]
  constructor
  · rintro ⟨k, hk, hfk⟩
    rw [Finset.mem_sort, Finset.mem_union] at hk
    by_cases h1 : k ∈ orig
    · by_cases h2 : k ∈ keys
      · simp [h1, h2] at hfk
      · simp [h1, h2] at hfk
        exact Or.inr ⟨k, h1, h2, hfk.symm⟩
    · have h2 : k ∈ keys := hk.resolve_right h1
      simp [h1] at hfk
      exact Or.inl ⟨k, h2, h1, hfk.symm⟩
  · rintro (⟨k, hk, hno, rfl⟩ | ⟨k, ho, hnk, rfl⟩)
    · exact ⟨k, by rw [Finset.mem_sort]; exact Finset.mem_union_left _ hk, by simp [hno]⟩
    · exact ⟨k, by rw [Finset.mem_sort]; exact Finset.mem_union_right _ ho, by simp [ho, hnk]⟩

theorem map_tokenKey_filterMap_sublist (f : String → Option String)
    (hf : ∀ a b, f a = some b → tokenKey b = a) :
    ∀ l : List String, List.Sublist ((l.filterMap f).map tokenKey) l := by
  intro l
  induction l with
  | nil => simp
  | cons a l ih =>
    rw [List.filterMap_cons]
    cases hfa : f a with
    | none => exact ih.cons a
    | some b =>
      rw [List.map_cons, hf a b hfa]
      exact ih.cons₂ a

theorem changeTokens_key_of (keys orig : Finset String) (k t : String)
    (h : (if k ∉ orig then some ("+" ++ k)
          else if k ∉ keys then some ("-" ++ k) else none) = some t) :
    tokenKey t = k := by
  by_cases h1 : k ∈ orig
  · by_cases h2 : k ∈ keys
    · simp [h1, h2] at h
    · simp [h1, h2] at h
      rw [← h]
      exact tokenKey_minus k
  · simp [h1] at h
    rw [← h]
    exact tokenKey_plus k

theorem changeTokens_map_tokenKey_sublist (keys orig : Finset String) :
    List.Sublist ((changeTokens keys orig).map tokenKey)
      ((keys ∪ orig).sort (· ≤ ·)) :=
  map_tokenKey_filterMap_sublist _ (changeTokens_key_of keys orig) _

theorem changeTokens_keys_sorted (keys orig : Finset String) :
    List.Sorted (· ≤ ·) ((changeTokens keys orig).map tokenKey) :=
  List.Pairwise.sublist (changeTokens_map_tokenKey_sublist keys orig)
    (Finset.sort_sorted (· ≤ ·) _)

theorem changeTokens_nodup (keys orig : Finset String) :
    (changeTokens keys orig).Nodup :=
  List.Nodup.of_map tokenKey
    ((Finset.sort_nodup (· ≤ ·) _).sublist (changeTokens_map_tokenKey_sublist keys orig))

theorem changeTokens_perm (keys orig : Finset String) :
    List.Perm (changeTokens keys orig)
      ((((keys \ orig).sort (· ≤ ·)).map fun k => "+" ++ k)
        ++ (((orig \ keys).sort (· ≤ ·)).map fun k => "-" ++ k)) := by
  have hrnodup : ((((keys \ orig).sort (· ≤ ·)).map fun k => "+" ++ k)
      ++ (((orig \ keys).sort (· ≤ ·)).map fun k => "-" ++ k)).Nodup := by
    apply List.Nodup.append
    · exact (Finset.sort_nodup (· ≤ ·) _).map plus_append_injective
    · exact (Finset.sort_nodup (· ≤ ·) _).map minus_append_injective
    · intro t ht ht'
      obtain ⟨k, _, hkeq⟩ := List.mem_map.mp ht
      obtain ⟨k', _, hk'eq⟩ := List.mem_map.mp ht'
      exact plus_append_ne_minus_append k k' (hkeq.trans hk'eq.symm)
  apply (List.perm_ext_iff_of_nodup (changeTokens_nodup keys orig) hrnodup).mpr
  intro t
  rw [mem_changeTokens, List.mem_append, List.mem_map, List.mem_map]
  constructor
  · rintro (⟨k, hk, hno, rfl⟩ | ⟨k, ho, hnk, rfl⟩)
    · exact Or.inl ⟨k, by rw [Finset.mem_sort, Finset.mem_sdiff]; exact ⟨hk, hno⟩, rfl⟩
    · exact Or.inr ⟨k, by rw [Finset.mem_sort, Finset.mem_sdiff]; exact ⟨ho, hnk⟩, rfl⟩
  · rintro (⟨k, hk, rfl⟩ | ⟨k, hk, rfl⟩)
    · rw [Finset.mem_sort, Finset.mem_sdiff] at hk
      exact Or.inl ⟨k, hk.1, hk.2, rfl⟩
    · rw [Finset.mem_sort, Finset.mem_sdiff] at hk
      exact Or.inr ⟨k, hk.1, hk.2, rfl⟩

theorem changeTokens_eq_nil_iff {keys orig : Finset String} :
    changeTokens keys orig = [] ↔ keys = orig := by
  constructor
  · intro h
    apply Finset.ext
    intro a
    constructor
    · intro ha
      by_contra hno
      have hm : ("+" ++ a) ∈ changeTokens keys orig :=
        mem_changeTokens.mpr (Or.inl ⟨a, ha, hno, rfl⟩)
      rw [h] at hm
      exact absurd hm (List.not_mem_nil _)
    · intro ha
      by_contra hnk
      have hm : ("-" ++ a) ∈ changeTokens keys orig :=
        mem_changeTokens.mpr (Or.inr ⟨a, ha, hnk, rfl⟩)
      rw [h] at hm
      exact absurd hm (List.not_mem_nil _)
  · intro h
    subst h
    unfold changeTokens
    apply List.filterMap_eq_nil_iff.mpr
    intro k hk
    rw [Finset.mem_sort, Finset.union_self] at hk
    simp [hk]

theorem head_data_pyJoin (t : String) (rest : List String) (h : t.data ≠ []) :
    (pyJoin " " (t :: rest)).data.head? = t.data.head? := by
  cases rest with
  | nil => rfl
  | cons y ys =>
    show ((t ++ " ") ++ pyJoin " " (y :: ys)).data.head? = _
    rw [String.data_append, String.data_append]
    rcases ht : t.data with _ | ⟨c, cs⟩
    · exact absurd ht h
    · rfl

theorem changesLine_eq_none_iff (keys orig : Finset String) :
    changesLine keys orig = "None" ↔ keys = orig := by
  rcases hct : changeTokens keys orig with _ | ⟨t, rest⟩
  · unfold changesLine
    rw [hct]
    simp only [if_pos rfl]
    constructor
    · intro _
      exact changeTokens_eq_nil_iff.mp hct
    · intro _
      rfl
  · unfold changesLine
    rw [hct]
    rw [if_neg (by simp)]
    constructor
    · intro hj
      exfalso
      have ht : t ∈ changeTokens keys orig := by
        rw [hct]
        exact List.mem_cons_self t rest
      have h1 := congrArg (fun s => s.data.head?) hj
      simp only at h1
      rcases mem_changeTokens.mp ht with ⟨k, _, _, rfl⟩ | ⟨k, _, _, rfl⟩
      · rw [head_data_pyJoin _ rest
          (by rw [String.data_append]; exact List.cons_ne_nil '+' k.data)] at h1
        rw [String.data_append] at h1
        exact absurd (show some '+' = some 'N' from h1) (by decide)
      · rw [head_data_pyJoin _ rest
          (by rw [String.data_append]; exact List.cons_ne_nil '-' k.data)] at h1
        rw [String.data_append] at h1
        exact absurd (show some '-' = some 'N' from h1) (by decide)
    · intro he
      have hnil := changeTokens_eq_nil_iff.mpr he
      rw [hct] at hnil
      exact absurd hnil (by simp)

/-! ## Claim theorems -/

/-- Claim C1: in every invocation of `EditKeysDialog.ShowModal` — whatever
the outcomes of `suppress_keyboard` and of the inner modal run (normal
return with any code, or an exception) — the capture listener is started
first, started and stopped exactly once, and the stop (`capture.cancel`)
is the last event before the result (return value or propagated
exception) reaches the caller; the returned code is the inner modal
run's code, and an exception from `suppress_keyboard` or the modal run
propagates unchanged, after the stop. -/
theorem editKeysShowModal_cleanup (suppress : Except Exn Unit) (superModal : Except Exn Nat) :
    (editKeysShowModal suppress superModal).2.count .start = 1 ∧
    (editKeysShowModal suppress superModal).2.count .cancel = 1 ∧
    (editKeysShowModal suppress superModal).2.head? = some .start ∧
    (editKeysShowModal suppress superModal).2.getLast? = some .cancel ∧
    (editKeysShowModal suppress superModal).1 =
      (match suppress with | .error e => .error e | .ok _ => superModal) := by
  rcases suppress with e | ⟨⟩
  · exact ⟨rfl, rfl, rfl, rfl, rfl⟩
  · rcases superModal with e | code
    · exact ⟨rfl, rfl, rfl, rfl, rfl⟩
    · exact ⟨rfl, rfl, rfl, rfl, rfl⟩

/-- Claim C5: the options object is written back exactly when the
configuration dialog closes with `wx.ID_OK` — in that case it receives
the checkbox value and the widget's reconstructed mapping — and on any
other code (in particular `wx.ID_CANCEL`) it is returned untouched;
moreover `__init__` renders the checkbox from `options.arpeggiate`. -/
theorem kcShowModal_writes_iff_ok (st : KCDialogState) (code : Nat) (options : Options) :
    kcShowModal st code options =
      (code,
        if code = wxID_OK then
          { arpeggiate := st.arpeggiateChecked
            keymap := get_mappings st.keymapRows }
        else options) ∧
    (kcInit options).arpeggiateChecked = options.arpeggiate ∧
    (kcShowModal st wxID_CANCEL options).2 = options := by
  refine ⟨?_, rfl, rfl⟩
  by_cases h : code = wxID_OK <;> simp [kcShowModal, h]

/-- Claim C7: `EditKeysDialog.on_capture_key` toggles the captured key's
membership in the working set — the set becomes `S ∪ {k}` when `k ∉ S`
and `S \ {k}` when `k ∈ S` — and capturing the same key twice in
succession restores the original working set. -/
theorem on_capture_key_toggles (st : EditKeysState) (key : String) :
    (on_capture_key st key).keys =
      (if key ∈ st.keys then st.keys \ {key} else st.keys ∪ {key}) ∧
    (on_capture_key (on_capture_key st key) key).keys = st.keys := by
  constructor
  · by_cases h : key ∈ st.keys
    · simp [on_capture_key, h, Finset.sdiff_singleton_eq_erase]
    · simp only [on_capture_key, if_neg h]
      rw [Finset.insert_eq, Finset.union_comm]
  · by_cases h : key ∈ st.keys
    · have h2 : key ∉ st.keys.erase key := Finset.not_mem_erase key st.keys
      simp [on_capture_key, h, h2, Finset.insert_erase h]
    · have h2 : key ∈ insert key st.keys := Finset.mem_insert_self key st.keys
      simp [on_capture_key, h, h2, Finset.erase_insert h]

/-- Claim C3: `set_mappings` followed by `get_mappings` is the identity
on an ordered action-to-keys mapping whose key lists consist of nonempty,
whitespace-free tokens: the same actions come back in the same order,
each with the same key tokens. -/
theorem set_get_mappings_roundtrip (m : List (String × List String))
    (hnd : (m.map Prod.fst).Nodup)
    (htok : ∀ p ∈ m, ∀ t ∈ p.2, t.data ≠ [] ∧ ∀ c ∈ t.data, pyIsSpace c = false) :
    get_mappings (set_mappings (m.map fun p => (p.1, KeyVal.list p.2)))
      = m.map fun p => (p.1, KeyVal.list p.2) := by
  have hrows : set_mappings (m.map fun p => (p.1, KeyVal.list p.2))
      = m.map fun p => (p.1, pyJoin " " p.2) := by
    unfold set_mappings
    rw [List.map_map]
    rfl
  rw [hrows, get_mappings_eq_map _ (by rw [List.map_map]; simpa [Function.comp] using hnd)]
  rw [List.map_map]
  apply List.map_congr_left
  intro p hp
  simp only [Function.comp]
  rw [pySplit_pyJoin p.2 (htok p hp)]

/-- Witness for C3 at the concrete mapping
`[a ↦ [S1, T], b ↦ [Z]]`. -/
theorem set_get_mappings_roundtrip_witness :
    (([("a", ["S1", "T"]), ("b", ["Z"])].map Prod.fst).Nodup) ∧
    get_mappings (set_mappings
        ([("a", ["S1", "T"]), ("b", ["Z"])].map fun p => (p.1, KeyVal.list p.2)))
      = [("a", ["S1", "T"]), ("b", ["Z"])].map fun p => (p.1, KeyVal.list p.2) :=
  ⟨by decide, set_get_mappings_roundtrip [("a", ["S1", "T"]), ("b", ["Z"])]
    (by decide) (by decide)⟩

/-- Claim C4: `on_reset` reloads the widget from the merge of the
currently displayed mapping with the default mapping, in which every
action of the default mapping is bound to the default's value and every
displayed action absent from the default keeps its current value. -/
theorem on_reset_overwrites_and_preserves (default : List (String × KeyVal))
    (st : KCDialogState) (hnd : (default.map Prod.fst).Nodup) :
    (on_reset default st).keymapRows
      = set_mappings (odUpdate (get_mappings st.keymapRows) default) ∧
    (∀ a v, odGet default a = some v →
      odGet (odUpdate (get_mappings st.keymapRows) default) a = some v) ∧
    (∀ a, odGet default a = none →
      odGet (odUpdate (get_mappings st.keymapRows) default) a
        = odGet (get_mappings st.keymapRows) a) := by
  refine ⟨rfl, ?_, ?_⟩
  · intro a v hv
    rw [odGet_odUpdate default hnd _ a, hv]
    rfl
  · intro a hnone
    rw [odGet_odUpdate default hnd _ a, hnone]
    rfl

/-- Witness for C4: resetting the displayed mapping `{A: [x], B: [y]}`
against the default `{A: [p, q]}` yields `{A: [p, q], B: [y]}`. -/
theorem on_reset_overwrites_witness :
    (([("A", KeyVal.list ["p", "q"])].map Prod.fst).Nodup) ∧
    odUpdate (get_mappings [("A", "x"), ("B", "y")]) [("A", KeyVal.list ["p", "q"])]
      = [("A", KeyVal.list ["p", "q"]), ("B", KeyVal.list ["y"])] ∧
    odGet (odUpdate (get_mappings [("A", "x"), ("B", "y")])
        [("A", KeyVal.list ["p", "q"])]) "A" = some (KeyVal.list ["p", "q"]) ∧
    odGet (odUpdate (get_mappings [("A", "x"), ("B", "y")])
        [("A", KeyVal.list ["p", "q"])]) "B"
      = odGet (get_mappings [("A", "x"), ("B", "y")]) "B" := by
  refine ⟨by decide, by decide, ?_, ?_⟩
  · exact (on_reset_overwrites_and_preserves [("A", KeyVal.list ["p", "q"])]
      ⟨false, [("A", "x"), ("B", "y")]⟩ (by decide)).2.1 "A" (KeyVal.list ["p", "q"])
      (by decide)
  · exact (on_reset_overwrites_and_preserves [("A", KeyVal.list ["p", "q"])]
      ⟨false, [("A", "x"), ("B", "y")]⟩ (by decide)).2.2 "B" (by decide)

/-- Claim C9: the merge performed by `on_reset` is exactly the displayed
entries (those with a default overwritten in place) followed by the
default entries whose action is absent from the display, in the default
mapping's order, so missing default actions appear as new rows at the
end after the reload. -/
theorem on_reset_appends_missing_defaults (default : List (String × KeyVal))
    (st : KCDialogState) (hnd : (default.map Prod.fst).Nodup) :
    odUpdate (get_mappings st.keymapRows) default
      = (get_mappings st.keymapRows).map (odOverwrite default)
        ++ default.filter (fun p => !odHasKey (get_mappings st.keymapRows) p.1) ∧
    (on_reset default st).keymapRows
      = set_mappings ((get_mappings st.keymapRows).map (odOverwrite default)
        ++ default.filter fun p => !odHasKey (get_mappings st.keymapRows) p.1) := by
  have h := odUpdate_eq default hnd (get_mappings st.keymapRows)
  refine ⟨h, ?_⟩
  show set_mappings (odUpdate (get_mappings st.keymapRows) default) = _
  rw [h]

/-- Witness for C9: resetting `{A: [x], B: [y]}` against the default
`{A: [p], C: [z]}` appends the new action `C` after the existing rows. -/
theorem on_reset_appends_witness :
    (([("A", KeyVal.list ["p"]), ("C", KeyVal.list ["z"])].map Prod.fst).Nodup) ∧
    odUpdate (get_mappings [("A", "x"), ("B", "y")])
        [("A", KeyVal.list ["p"]), ("C", KeyVal.list ["z"])]
      = [("A", KeyVal.list ["p"]), ("B", KeyVal.list ["y"]), ("C", KeyVal.list ["z"])] ∧
    odUpdate (get_mappings [("A", "x"), ("B", "y")])
        [("A", KeyVal.list ["p"]), ("C", KeyVal.list ["z"])]
      = (get_mappings [("A", "x"), ("B", "y")]).map
          (odOverwrite [("A", KeyVal.list ["p"]), ("C", KeyVal.list ["z"])])
        ++ [("A", KeyVal.list ["p"]), ("C", KeyVal.list ["z"])].filter
          (fun p => !odHasKey (get_mappings [("A", "x"), ("B", "y")]) p.1) := by
  refine ⟨by decide, by decide, ?_⟩
  exact (on_reset_appends_missing_defaults
    [("A", KeyVal.list ["p"]), ("C", KeyVal.list ["z"])]
    ⟨false, [("A", "x"), ("B", "y")]⟩ (by decide)).1

/-- Claim C8: reading the keymap widget never fails on malformed
key-column text: a row whose key text is empty or all whitespace
contributes an empty key list (and `get_mappings`, being a total
function of the rows, raises no error). -/
theorem get_mappings_malformed (rows : ListState) (a t : String)
    (h : ∀ c ∈ t.data, pyIsSpace c = true) :
    pySplit t = [] ∧
    get_mappings (rows ++ [(a, t)]) = odInsert (get_mappings rows) a (KeyVal.list []) := by
  have hs := pySplit_all_space t h
  refine ⟨hs, ?_⟩
  unfold get_mappings
  rw [List.foldl_append]
  simp [hs]

/-- Witness for C8 with the whitespace-only key text `"  "`. -/
theorem get_mappings_malformed_witness :
    (∀ c ∈ ("  " : String).data, pyIsSpace c = true) ∧
    (pySplit "  " = [] ∧
      get_mappings ([("x", "a b")] ++ [("S-", "  ")])
        = odInsert (get_mappings [("x", "a b")]) "S-" (KeyVal.list [])) :=
  ⟨by decide, get_mappings_malformed [("x", "a b")] "S-" "  " (by decide)⟩

theorem sortedJoin_eval (l : List String) (hnd : l.Nodup) (hs : List.Sorted (· ≤ ·) l) :
    sortedJoin l.toFinset = pyJoin " " l := by
  unfold sortedJoin
  rw [(List.toFinset_sort (· ≤ ·) hnd).mpr hs]

/-- Counterexample to claim C2 as stated: with working set `{"b"}` and
original set `{"a"}` the rendered change tokens are `["-a", "+b"]`, and
this token list is not sorted lexicographically, since `'-'` (code 45)
compares greater than `'+'` (code 43), so `"-a" > "+b"`. -/
theorem changeTokens_not_lex_sorted :
    changeTokens {"b"} {"a"} = ["-a", "+b"] ∧
    ¬ List.Sorted (· ≤ ·) (changeTokens {"b"} {"a"}) := by
  have hu : ({"b"} ∪ {"a"} : Finset String) = {"a", "b"} := by decide
  have hsort : Finset.sort (· ≤ ·) ({"a", "b"} : Finset String) = ["a", "b"] := by
    rw [show ({"a", "b"} : Finset String) = insert "a" {"b"} from rfl]
    rw [Finset.sort_insert]
    · rw [Finset.sort_singleton]
    · intro b hb
      rw [Finset.mem_singleton] at hb
      subst hb
      rw [String.le_iff_toList_le]
      decide
    · decide
  have h : changeTokens {"b"} {"a"} = ["-a", "+b"] := by
    unfold changeTokens
    rw [hu, hsort]
    decide
  refine ⟨h, ?_⟩
  rw [h]
  intro hs
  have h1 : ("-a" : String) ≤ "+b" :=
    (List.sorted_cons.mp hs).1 "+b" (List.mem_singleton.mpr rfl)
  rw [String.le_iff_toList_le] at h1
  exact absurd h1 (by decide)

/-- Claim C2 (amended): the changes list holds exactly one `+k` token for
each `k ∈ S \ O` and exactly one `-k` token for each `k ∈ O \ S` and
nothing else (stated as a permutation with the two sorted sign-blocks,
plus `Nodup`); the tokens appear in lexicographically increasing order of
their key names (the sign-stripped tokens are sorted — the full tokens
themselves need not be, see the counterexample); the changes line reads
`"None"` iff `S = O`; and the current-key-set line is the sorted,
space-joined keys, or `"None"` when the set is empty. -/
theorem update_message_changes_spec (keys orig : Finset String) :
    List.Perm (changeTokens keys orig)
      ((((keys \ orig).sort (· ≤ ·)).map fun k => "+" ++ k)
        ++ (((orig \ keys).sort (· ≤ ·)).map fun k => "-" ++ k)) ∧
    (changeTokens keys orig).Nodup ∧
    List.Sorted (· ≤ ·) ((changeTokens keys orig).map tokenKey) ∧
    (changesLine keys orig = "None" ↔ keys = orig) ∧
    currentKeysLine keys
      = (if keys = ∅ then "None" else pyJoin " " (keys.sort (· ≤ ·))) :=
  ⟨changeTokens_perm keys orig, changeTokens_nodup keys orig,
    changeTokens_keys_sorted keys orig, changesLine_eq_none_iff keys orig, rfl⟩

/-- Claim C6: activating row `i` opens the capture dialog seeded with the
tokens of that row's key text; when the dialog is confirmed with
`wx.ID_OK` the row's key column is replaced by the dialog's final working
set rendered sorted and space-joined (other rows untouched), and on any
other close code the rows are unchanged. -/
theorem edit_item_spec (rows : ListState) (i : Nat) (events : List DlgEvent) (code : Nat)
    (action text : String) (h : rows[i]? = some (action, text)) :
    (editKeysInit action (pySplit text)).keys = (pySplit text).toFinset ∧
    (code ≠ wxID_OK → edit_item rows i events code = rows) ∧
    (code = wxID_OK → edit_item rows i events code
      = rows.set i
          (action, sortedJoin (dlgRun (editKeysInit action (pySplit text)) events).keys)) := by
  refine ⟨rfl, ?_, ?_⟩
  · intro hne
    unfold edit_item
    rw [h]
    simp [hne]
  · intro heq
    unfold edit_item
    rw [h]
    simp [heq]

/-- Witness for C6 on the row `("S", "b a")` with one captured key `"c"`:
cancelling leaves the row, confirming rewrites it to `"a b c"`. -/
theorem edit_item_spec_witness :
    (([("S", "b a")] : ListState)[0]? = some ("S", "b a")) ∧
    edit_item [("S", "b a")] 0 [DlgEvent.captureKey "c"] wxID_CANCEL = [("S", "b a")] ∧
    edit_item [("S", "b a")] 0 [DlgEvent.captureKey "c"] wxID_OK
      = [("S", "b a")].set 0
          ("S", sortedJoin (dlgRun (editKeysInit "S" (pySplit "b a"))
            [DlgEvent.captureKey "c"]).keys) ∧
    sortedJoin (dlgRun (editKeysInit "S" (pySplit "b a")) [DlgEvent.captureKey "c"]).keys
      = "a b c" := by
  have h1 := edit_item_spec [("S", "b a")] 0 [DlgEvent.captureKey "c"] wxID_CANCEL
    "S" "b a" rfl
  have h2 := edit_item_spec [("S", "b a")] 0 [DlgEvent.captureKey "c"] wxID_OK
    "S" "b a" rfl
  have hsorted : List.Sorted (· ≤ ·) (["a", "b", "c"] : List String) := by
    simp only [List.sorted_cons, List.mem_cons, List.mem_singleton, forall_eq_or_imp,
      forall_eq, String.le_iff_toList_le, List.not_mem_nil, false_implies, implies_true,
      and_true, List.sorted_nil]
    refine ⟨⟨?_, ?_⟩, ?_⟩ <;> decide
  have heval : sortedJoin (dlgRun (editKeysInit "S" (pySplit "b a"))
      [DlgEvent.captureKey "c"]).keys = "a b c" := by
    have hset : (dlgRun (editKeysInit "S" (pySplit "b a")) [DlgEvent.captureKey "c"]).keys
        = (["a", "b", "c"] : List String).toFinset := by decide
    rw [hset, sortedJoin_eval ["a", "b", "c"] (by decide) hsorted]
    rfl
  exact ⟨rfl, h1.2.1 (by decide), h2.2.2 rfl, heval⟩

/-- Claim C10: confirming the capture dialog rewrites the row as the
sorted, space-joined rendering of the deduplicated token set even with no
key presses, so any row whose tokens are out of order or duplicated gets
different text on confirm, while any non-OK close leaves the rows
byte-for-byte intact. -/
theorem edit_item_normalizes (rows : ListState) (i : Nat) (action text : String)
    (h : rows[i]? = some (action, text)) :
    edit_item rows i [] wxID_OK
      = rows.set i (action, sortedJoin (pySplit text).toFinset) ∧
    (¬(List.Sorted (· ≤ ·) (pySplit text) ∧ (pySplit text).Nodup) →
      sortedJoin (pySplit text).toFinset ≠ text) ∧
    (∀ events code, code ≠ wxID_OK → edit_item rows i events code = rows) := by
  refine ⟨?_, ?_, ?_⟩
  · unfold edit_item
    rw [h]
    simp [dlgRun, editKeysInit]
  · intro hmal heq
    have htoks := pySplit_tokens text
    have hL : pySplit (sortedJoin (pySplit text).toFinset)
        = Finset.sort (· ≤ ·) (pySplit text).toFinset := by
      unfold sortedJoin
      apply pySplit_pyJoin
      intro t ht
      exact htoks t (List.mem_toFinset.mp ((Finset.mem_sort (· ≤ ·)).mp ht))
    have hEq2 : pySplit text = Finset.sort (· ≤ ·) (pySplit text).toFinset := by
      conv_lhs => rw [← heq]
      exact hL
    apply hmal
    constructor
    · rw [hEq2]
      exact Finset.sort_sorted (· ≤ ·) _
    · rw [hEq2]
      exact Finset.sort_nodup (· ≤ ·) _
  · intro events code hne
    unfold edit_item
    rw [h]
    simp [hne]

/-- Witness for C10 on the out-of-order row `("S", "b a")`: confirming
with no key presses rewrites the text to `"a b"` (different from
`"b a"`); cancelling leaves it untouched. -/
theorem edit_item_normalizes_witness :
    (([("S", "b a")] : ListState)[0]? = some ("S", "b a")) ∧
    sortedJoin (pySplit "b a").toFinset = "a b" ∧
    sortedJoin (pySplit "b a").toFinset ≠ "b a" ∧
    edit_item [("S", "b a")] 0 [] wxID_OK
      = [("S", "b a")].set 0 ("S", sortedJoin (pySplit "b a").toFinset) ∧
    edit_item [("S", "b a")] 0 [] wxID_CANCEL = [("S", "b a")] := by
  have hmain := edit_item_normalizes [("S", "b a")] 0 "S" "b a" rfl
  have hsorted : List.Sorted (· ≤ ·) (["a", "b"] : List String) := by
    simp only [List.sorted_cons, List.mem_cons, List.mem_singleton, List.not_mem_nil,
      or_false, forall_eq, String.le_iff_toList_le, implies_true, and_true,
      List.sorted_nil]
    exact ⟨by decide, fun b h => h.elim⟩
  have heval : sortedJoin (pySplit "b a").toFinset = "a b" := by
    have hset : (pySplit "b a").toFinset = (["a", "b"] : List String).toFinset := by decide
    rw [hset, sortedJoin_eval ["a", "b"] (by decide) hsorted]
    rfl
  have hmal : ¬(List.Sorted (· ≤ ·) (pySplit "b a") ∧ (pySplit "b a").Nodup) := by
    rintro ⟨hs, _⟩
    rw [show pySplit "b a" = ["b", "a"] from rfl] at hs
    have hba : ("b" : String) ≤ "a" :=
      (List.sorted_cons.mp hs).1 "a" (List.mem_singleton.mpr rfl)
    rw [String.le_iff_toList_le] at hba
    exact absurd hba (by decide)
  exact ⟨rfl, heval, hmain.2.1 hmal, hmain.1, hmain.2.2 [] wxID_CANCEL (by decide)⟩

end KeyboardConfig
